import Mathlib

/-!
Shallow embedding of the Supabase upload provider for Strapi
(`src/index.ts`, `src/utils.ts`, `src/types.ts`).

Pure string and number utilities are translated directly; the stateful
provider facade becomes explicit state passing (the provider record is the
validated configuration plus the storage-client handle data), and the remote
storage backend is an oracle function supplied per call, so that theorems can
quantify over every backend outcome.
-/

namespace SupabaseProvider

/-- Embeds `getBearerToken` of `src/utils.ts`: the template string
`Bearer \x24{apiKey}`. -/
def getBearerToken (apiKey : String) : String :=
  "Bearer " ++ apiKey

/-- Embeds `getStorageEndpoint` of `src/utils.ts`: appends `/storage/v1`
to the project URL, with no normalization. -/
def getStorageEndpoint (apiUrl : String) : String :=
  apiUrl ++ "/storage/v1"

/-! ## `path.posix.join`

`getPathKey` of `src/utils.ts` calls Node's `path.posix.join(directory,
fileName)`.  Node's implementation concatenates the non-empty arguments with
`/` and then normalizes the result character by character: it splits into
non-empty segments, drops `.` segments, resolves `..` segments against the
stack built so far (keeping `..` that climb above the start of a relative
path and dropping those of an absolute path), rejoins the stack with single
slashes, and finally restores a single leading slash for absolute input and a
trailing slash when the input ended in one.  The embedding below follows that
segment-by-segment pass. -/

/-- Splits a character list into its non-empty `/`-separated segments,
accumulating the current segment in reverse in `acc`. -/
def segsAux : List Char → List Char → List (List Char)
  | acc, [] => if acc = [] then [] else [acc.reverse]
  | acc, c :: cs =>
    if c = '/' then
      if acc = [] then segsAux [] cs else acc.reverse :: segsAux [] cs
    else
      segsAux (c :: acc) cs

/-- The non-empty `/`-separated segments of a character list. -/
def segsOf (cs : List Char) : List (List Char) :=
  segsAux [] cs

/-- Resolves `.` and `..` segments against the stack of kept segments, as
Node's `normalizeString` does; `aar` (allow-above-root) is true for relative
paths, where `..` segments that climb above the start are kept. -/
def normStack (aar : Bool) : List (List Char) → List (List Char) → List (List Char)
  | stack, [] => stack
  | stack, s :: rest =>
    if s = ['.'] then
      normStack aar stack rest
    else if s = ['.', '.'] then
      if stack ≠ [] ∧ stack.getLast? ≠ some ['.', '.'] then
        normStack aar stack.dropLast rest
      else if aar then
        normStack aar (stack ++ [['.', '.']]) rest
      else
        normStack aar stack rest
    else
      normStack aar (stack ++ [s]) rest

/-- Joins strings with single `/` separators (the separator-interleaving both
of Node's `join` and of the final rebuild in `normalize`). -/
def joinSlash : List String → String
  | [] => ""
  | [s] => s
  | s :: rest => s ++ "/" ++ joinSlash rest

/-- Embeds `path.posix.normalize`. -/
def posixNormalize (p : String) : String :=
  let cs := p.data
  let isAbs : Bool := cs.head? == some '/'
  let trailing : Bool := cs.getLast? == some '/'
  let stack := normStack (!isAbs) [] (segsOf cs)
  if stack = [] then
    if isAbs then "/" else if trailing then "./" else "."
  else
    (if isAbs then "/" else "") ++ joinSlash (stack.map String.mk) ++
      (if trailing then "/" else "")

/-- Embeds `path.posix.join`: the non-empty arguments interleaved with `/`,
normalized; `.` when nothing remains. -/
def posixJoin (parts : List String) : String :=
  let kept := parts.filter (fun s => s ≠ "")
  if kept = [] then "." else posixNormalize (joinSlash kept)

/-! ## File records and key derivation -/

/-- Embeds the `StrapiFile` interface of `src/types.ts`.  `size` is a host
number (kilobytes, possibly fractional), embedded as a rational; the byte
payload fields carry opaque content. -/
structure StrapiFile where
  name : String
  hash : String
  ext : String
  mime : String
  size : ℚ
  url : String
  buffer : Option String := none
  stream : Option String := none
deriving DecidableEq, Repr

/-- Embeds `getPathKey` of `src/utils.ts`: `hash ++ ext`, returned unchanged
for a falsy (empty) directory and otherwise joined via `path.posix.join`. -/
def getPathKey (file : StrapiFile) (directory : String) : String :=
  let fileName := file.hash ++ file.ext
  if directory = "" then
    fileName
  else
    posixJoin [directory, fileName]

/-- Embeds `kbytesToBytes` of `src/utils.ts`: decimal kilobytes, `n * 1000`. -/
def kbytesToBytes (sizeInKb : ℚ) : ℚ :=
  sizeInKb * 1000

/-! ## `bytesToHumanReadable`

The source computes `i = Math.floor(Math.log(bytes) / Math.log(1000))`,
scales by `1000^i`, formats with `toFixed(2)` and appends `units[i]`, where an
out-of-range index makes `units[i]` the value `undefined`, interpolated as the
string `undefined`.  The embedding computes the floor logarithm exactly: for
inputs `q ≥ 1` it is the base-1000 natural logarithm of `⌊q⌋`, and for
`0 < q < 1` it is `-m` for the least `m` with `q * 1000^m ≥ 1`. -/

/-- Fuel-driven floor logarithm base 1000 (`log1000Aux n n` terminates since
`n / 1000 < n`). -/
def log1000Aux : ℕ → ℕ → ℕ
  | 0, _ => 0
  | fuel + 1, n => if n < 1000 then 0 else log1000Aux fuel (n / 1000) + 1

/-- Floor of the base-1000 logarithm of a natural number (0 at 0). -/
def log1000 (n : ℕ) : ℕ :=
  log1000Aux n n

/-- Fuel-driven ceiling logarithm base 1000. -/
def clog1000Aux : ℕ → ℕ → ℕ
  | 0, _ => 0
  | fuel + 1, k => if k ≤ 1 then 0 else clog1000Aux fuel ((k + 999) / 1000) + 1

/-- Least `j` with `k ≤ 1000 ^ j`: the ceiling base-1000 logarithm. -/
def clog1000 (k : ℕ) : ℕ :=
  clog1000Aux k k

/-- The exact value of `Math.floor(Math.log(q) / Math.log(1000))` for
`q > 0`: the unique `i : ℤ` with `1000 ^ i ≤ q < 1000 ^ (i + 1)`. -/
def logIndexQ (q : ℚ) : ℤ :=
  if 1 ≤ q then
    (log1000 ⌊q⌋.toNat : ℤ)
  else
    -(clog1000 ((q.den + q.num.toNat - 1) / q.num.toNat) : ℤ)

/-- Two-digit zero padding for the fractional part. -/
def pad2 (m : ℤ) : String :=
  if m < 10 then "0" ++ toString m else toString m

/-- Embeds JavaScript's `Number.prototype.toFixed(2)`: the integer nearest to
`100 * q` (ties toward the larger), rendered with two digits after the
point. -/
def formatFixed2 (q : ℚ) : String :=
  let n : ℤ := ⌊q * 100 + 1 / 2⌋
  if n < 0 then
    "-" ++ toString (-n / 100) ++ "." ++ pad2 (-n % 100)
  else
    toString (n / 100) ++ "." ++ pad2 (n % 100)

/-- The unit table of `bytesToHumanReadable`. -/
def units : List String :=
  ["Bytes", "KB", "MB", "GB", "TB", "PB"]

/-- The JavaScript indexing `units[i]`: `undefined` (interpolated as the
string `undefined`) outside the table. -/
def unitName (i : ℤ) : String :=
  (if 0 ≤ i then units.get? i.toNat else none).getD "undefined"

/-- Embeds `bytesToHumanReadable` of `src/utils.ts`. -/
def bytesToHumanReadable (bytes : ℚ) : String :=
  if bytes = 0 then
    "0 Bytes"
  else
    let i := logIndexQ bytes
    let size := bytes / (1000 : ℚ) ^ i
    formatFixed2 size ++ " " ++ unitName i
/-! ## The provider facade (`src/index.ts`)

The factory validates the configuration, applies defaults and builds the
`StorageClient` handle; the returned method object closes over both.  The
embedding makes the closure state the explicit `Provider` record, and each
remote round trip an oracle function argument, so that a theorem quantifies
over every backend outcome: `none` for a successful call, `some msg` for a
backend error carrying `msg`. -/

/-- Embeds `ProviderConfig` of `src/types.ts` as the factory receives it:
any field may be absent (TypeScript `undefined`), and a present string may
still be empty. -/
structure RawConfig where
  apiUrl : Option String := none
  apiKey : Option String := none
  bucket : Option String := none
  directory : Option String := none
  publicFiles : Option Bool := none
  signedUrlExpires : Option Int := none
deriving DecidableEq, Repr

/-- JavaScript falsiness of `config.apiUrl` and friends: absent or empty. -/
def strFalsy (o : Option String) : Bool :=
  o.getD "" = ""

/-- The `StorageClient` handle data: endpoint plus the two credential
headers passed to its constructor. -/
structure ClientHandle where
  endpoint : String
  apikeyHeader : String
  authHeader : String
deriving DecidableEq, Repr

/-- The state the returned provider object closes over: the validated and
defaulted configuration together with the storage-client handle. -/
structure Provider where
  bucket : String
  directory : String
  publicFiles : Bool
  signedUrlExpires : Int
  client : ClientHandle
deriving DecidableEq, Repr

/-- The construction-failure message of `src/index.ts`. -/
def configErrorMsg : String :=
  "Supabase provider requires apiUrl, apiKey, and bucket configuration. " ++
    "Please check your plugin configuration."

/-- Embeds the default-exported factory of `src/index.ts` up to the returned
method object: validation, defaulting (`?? ''`, `?? true`, `?? 3600`) and
client-handle construction. -/
def initProvider (c : RawConfig) : Except String Provider :=
  if strFalsy c.apiUrl || strFalsy c.apiKey || strFalsy c.bucket then
    .error configErrorMsg
  else
    let apiKey := c.apiKey.getD ""
    .ok
      { bucket := c.bucket.getD ""
        directory := c.directory.getD ""
        publicFiles := c.publicFiles.getD true
        signedUrlExpires := c.signedUrlExpires.getD 3600
        client :=
          { endpoint := getStorageEndpoint (c.apiUrl.getD "")
            apikeyHeader := apiKey
            authHeader := getBearerToken apiKey } }

/-- Modelled from the spec: the repository delegates public-URL resolution to
the external storage client, whose contract is the deterministic composition
`<endpoint>/object/public/<bucket>/<key>` with no network round trip. -/
def getPublicUrl (endpoint bucket key : String) : String :=
  endpoint ++ "/object/public/" ++ bucket ++ "/" ++ key

/-- The upload request `uploadFile` issues: key, payload (`file.stream ||
file.buffer`) and the fixed options of `src/index.ts`. -/
structure UploadRequest where
  bucket : String
  path : String
  body : Option String
  contentType : String
  duplex : String
  upsert : Bool
  cacheControl : String
deriving DecidableEq, Repr

/-- The request the internal `uploadFile` of `src/index.ts` sends. -/
def uploadRequest (p : Provider) (f : StrapiFile) : UploadRequest :=
  { bucket := p.bucket
    path := getPathKey f p.directory
    body := f.stream <|> f.buffer
    contentType := f.mime
    duplex := "half"
    upsert := true
    cacheControl := "3600" }

/-- Embeds the internal `uploadFile` of `src/index.ts`.  `send` is the
backend round trip (`none` = success).  Returns the file as the host sees it
afterwards, paired with the thrown message if any. -/
def uploadFile (p : Provider) (send : UploadRequest → Option String)
    (f : StrapiFile) : StrapiFile × Option String :=
  let filePath := getPathKey f p.directory
  match send (uploadRequest p f) with
  | some m => (f, some ("Failed to upload file to Supabase: " ++ m))
  | none =>
    if p.publicFiles then
      ({ f with url := getPublicUrl p.client.endpoint p.bucket filePath,
                mime := f.mime }, none)
    else
      ({ f with url := filePath, mime := f.mime }, none)

/-- Embeds the provider method `upload`: it delegates to `uploadFile`. -/
def upload (p : Provider) (send : UploadRequest → Option String)
    (f : StrapiFile) : StrapiFile × Option String :=
  uploadFile p send f

/-- Embeds the provider method `uploadStream`: it also delegates to
`uploadFile`. -/
def uploadStream (p : Provider) (send : UploadRequest → Option String)
    (f : StrapiFile) : StrapiFile × Option String :=
  uploadFile p send f

/-- The one-element key list the provider method `delete` passes to
`storage.from(bucket).remove`. -/
def deleteKeys (p : Provider) (f : StrapiFile) : List String :=
  [getPathKey f p.directory]

/-- Embeds the provider method `delete`; `remove` is the backend batch
removal (`none` = success).  Returns the thrown message if any. -/
def deleteFile (p : Provider) (remove : List String → Option String)
    (f : StrapiFile) : Option String :=
  match remove (deleteKeys p f) with
  | some m => some ("Failed to delete file from Supabase: " ++ m)
  | none => none

/-- Embeds the provider method `checkFileSize`: a pure comparison, no
backend argument at all. -/
def checkFileSize (f : StrapiFile) (sizeLimit : ℚ) : Except String Unit :=
  if kbytesToBytes f.size > sizeLimit then
    .error (f.name ++ " exceeds size limit of " ++ bytesToHumanReadable sizeLimit)
  else
    .ok ()

/-- Embeds the provider method `isPrivate`. -/
def isPrivate (p : Provider) : Bool :=
  !p.publicFiles

/-- Embeds the provider method `getSignedUrl`; `sign` is the backend
`createSignedUrl` round trip, called on the key and the expiry. -/
def getSignedUrl (p : Provider) (sign : String → Int → Except String String)
    (f : StrapiFile) : Except String String :=
  if !(isPrivate p) then
    .ok f.url
  else
    match sign f.url p.signedUrlExpires with
    | .error m => .error ("Failed to generate signed URL: " ++ m)
    | .ok u => .ok u
/-! ## Concrete fixtures

The records the concrete evaluations run on, mirroring the fixtures of
`src/__tests__/index.test.ts`. -/

/-- The mock file of the test suite: hash `abc123`, extension `.jpg`,
size 100 KB. -/
def fileAbc : StrapiFile :=
  { name := "test.jpg", hash := "abc123", ext := ".jpg", mime := "image/jpeg",
    size := 100, url := "", buffer := some "test" }

/-- A public-bucket provider state as `initProvider` builds it from the test
configuration. -/
def provPub : Provider :=
  { bucket := "test-bucket", directory := "", publicFiles := true,
    signedUrlExpires := 3600,
    client := { endpoint := "https://test.supabase.co/storage/v1",
                apikeyHeader := "test-key", authHeader := "Bearer test-key" } }

/-- The same provider state with a private bucket. -/
def provPriv : Provider :=
  { provPub with publicFiles := false }

/-! ## Lemmas about the posix-join embedding -/

theorem segsAux_nil (acc : List Char) :
    segsAux acc [] = if acc = [] then [] else [acc.reverse] := rfl

theorem segsAux_cons (acc : List Char) (c : Char) (cs : List Char) :
    segsAux acc (c :: cs) =
      if c = '/' then
        if acc = [] then segsAux [] cs else acc.reverse :: segsAux [] cs
      else
        segsAux (c :: acc) cs := rfl

theorem segsAux_cons_slash (acc cs : List Char) :
    segsAux acc ('/' :: cs) =
      if acc = [] then segsAux [] cs else acc.reverse :: segsAux [] cs := by
  rw [segsAux_cons]
  exact if_pos rfl

theorem segsAux_cons_ne (acc : List Char) (c : Char) (cs : List Char)
    (hc : c ≠ '/') : segsAux acc (c :: cs) = segsAux (c :: acc) cs := by
  rw [segsAux_cons]
  exact if_neg hc

theorem segsAux_append_slash (l : List Char) :
    ∀ (acc cs : List Char),
      segsAux acc (l ++ '/' :: cs) = segsAux acc (l ++ ['/']) ++ segsAux [] cs := by
  induction l with
  | nil =>
    intro acc cs
    rw [List.nil_append, List.nil_append, segsAux_cons_slash, segsAux_cons_slash]
    by_cases h : acc = [] <;> simp [h, segsAux_nil]
  | cons c l ih =>
    intro acc cs
    simp only [List.cons_append]
    by_cases hc : c = '/'
    · subst hc
      rw [segsAux_cons_slash, segsAux_cons_slash]
      by_cases h : acc = []
      · rw [if_pos h, if_pos h, ih]
      · rw [if_neg h, if_neg h, ih]
        simp
    · rw [segsAux_cons_ne _ _ _ hc, segsAux_cons_ne _ _ _ hc, ih]

theorem segsAux_drop_last_slash (l : List Char) :
    ∀ acc : List Char, segsAux acc (l ++ ['/']) = segsAux acc l := by
  induction l with
  | nil =>
    intro acc
    rw [List.nil_append, segsAux_cons_slash]
    by_cases h : acc = [] <;> simp [h, segsAux_nil]
  | cons c l ih =>
    intro acc
    simp only [List.cons_append]
    by_cases hc : c = '/'
    · subst hc
      rw [segsAux_cons_slash, segsAux_cons_slash]
      by_cases h : acc = [] <;> simp [h, ih]
    · rw [segsAux_cons_ne _ _ _ hc, segsAux_cons_ne _ _ _ hc, ih]

theorem segsAux_no_slash (cs : List Char) :
    ∀ acc : List Char, '/' ∉ cs → (acc ≠ [] ∨ cs ≠ []) →
      segsAux acc cs = [acc.reverse ++ cs] := by
  induction cs with
  | nil =>
    intro acc _ hne
    have hacc : acc ≠ [] := by
      rcases hne with h | h
      · exact h
      · exact absurd rfl h
    simp [segsAux_nil, hacc]
  | cons c cs ih =>
    intro acc h _
    have hc : ¬ c = '/' := fun e => h (by simp [e])
    have hcs : '/' ∉ cs := fun e => h (by simp [e])
    rw [segsAux_cons, if_neg hc, ih (c :: acc) hcs (Or.inl (by simp))]
    simp

theorem segsOf_append_fileName (l fn : List Char) (hfn : fn ≠ [])
    (hs : '/' ∉ fn) : segsOf (l ++ '/' :: fn) = segsOf l ++ [fn] := by
  unfold segsOf
  rw [segsAux_append_slash, segsAux_drop_last_slash,
    segsAux_no_slash fn [] hs (Or.inr hfn)]
  simp

theorem normStack_cons (aar : Bool) (stack : List (List Char))
    (s : List Char) (rest : List (List Char)) :
    normStack aar stack (s :: rest) =
      if s = ['.'] then
        normStack aar stack rest
      else if s = ['.', '.'] then
        if stack ≠ [] ∧ stack.getLast? ≠ some ['.', '.'] then
          normStack aar stack.dropLast rest
        else if aar then
          normStack aar (stack ++ [['.', '.']]) rest
        else
          normStack aar stack rest
      else
        normStack aar (stack ++ [s]) rest := rfl

theorem normStack_plain (aar : Bool) :
    ∀ (segs stack : List (List Char)),
      (∀ s ∈ segs, s ≠ ['.'] ∧ s ≠ ['.', '.']) →
      normStack aar stack segs = stack ++ segs := by
  intro segs
  induction segs with
  | nil => intro stack _; simp [normStack]
  | cons s rest ih =>
    intro stack h
    have h1 := (h s (by simp)).1
    have h2 := (h s (by simp)).2
    rw [normStack_cons, if_neg h1, if_neg h2,
      ih (stack ++ [s]) (fun t ht => h t (by simp [ht]))]
    simp

theorem joinSlash_concat (y : String) :
    ∀ xs : List String, xs ≠ [] →
      joinSlash (xs ++ [y]) = joinSlash xs ++ "/" ++ y := by
  intro xs
  induction xs with
  | nil => intro h; exact absurd rfl h
  | cons x xs ih =>
    intro _
    cases xs with
    | nil => simp [joinSlash]
    | cons z zs =>
      have : joinSlash (x :: z :: zs ++ [y]) =
          x ++ "/" ++ joinSlash (z :: zs ++ [y]) := rfl
      rw [this, ih (by simp), show joinSlash (x :: z :: zs) =
        x ++ "/" ++ joinSlash (z :: zs) from rfl]
      simp [String.append_assoc]

theorem mem_of_mem_segsAux (c : Char) :
    ∀ (l acc s : List Char), s ∈ segsAux acc l → c ∈ s → c ∈ acc ∨ c ∈ l := by
  intro l
  induction l with
  | nil =>
    intro acc s hs hc
    by_cases h : acc = []
    · simp [segsAux_nil, h] at hs
    · simp [segsAux_nil, h] at hs
      subst hs
      exact Or.inl (by simpa using hc)
  | cons d l ih =>
    intro acc s hs hc
    by_cases hd : d = '/'
    · by_cases h : acc = []
      · rw [segsAux_cons, if_pos hd, if_pos h] at hs
        rcases ih [] s hs hc with h1 | h1
        · simp at h1
        · exact Or.inr (by simp [h1])
      · rw [segsAux_cons, if_pos hd, if_neg h] at hs
        rcases List.mem_cons.mp hs with h1 | h1
        · subst h1
          exact Or.inl (by simpa using hc)
        · rcases ih [] s h1 hc with h2 | h2
          · simp at h2
          · exact Or.inr (by simp [h2])
    · rw [segsAux_cons, if_neg hd] at hs
      rcases ih (d :: acc) s hs hc with h1 | h1
      · rcases List.mem_cons.mp h1 with h2 | h2
        · exact Or.inr (by simp [h2])
        · exact Or.inl h2
      · exact Or.inr (by simp [h1])

theorem mem_joinSlash (c : Char) :
    ∀ xs : List String, c ∈ (joinSlash xs).data →
      c = '/' ∨ ∃ x ∈ xs, c ∈ x.data := by
  intro xs
  induction xs with
  | nil => intro h; simp [joinSlash] at h
  | cons x xs ih =>
    cases xs with
    | nil =>
      intro h
      exact Or.inr ⟨x, by simp, h⟩
    | cons z zs =>
      intro h
      rw [show joinSlash (x :: z :: zs) = x ++ "/" ++ joinSlash (z :: zs) from rfl] at h
      rw [String.data_append, String.data_append] at h
      rcases List.mem_append.mp h with h1 | h1
      · rcases List.mem_append.mp h1 with h2 | h2
        · exact Or.inr ⟨x, by simp, h2⟩
        · left
          simpa using h2
      · rcases ih h1 with h2 | ⟨y, hy, hcy⟩
        · exact Or.inl h2
        · exact Or.inr ⟨y, by simp [hy], hcy⟩

theorem posixNormalize_plain (d fn : String)
    (hd : d.data ≠ [])
    (hsegs : segsOf d.data ≠ [])
    (hplain : ∀ s ∈ segsOf d.data, s ≠ ['.'] ∧ s ≠ ['.', '.'])
    (hfn : fn.data ≠ [])
    (hslash : '/' ∉ fn.data)
    (hf1 : fn.data ≠ ['.'])
    (hf2 : fn.data ≠ ['.', '.']) :
    posixNormalize (d ++ "/" ++ fn) =
      (if d.data.head? = some '/' then "/" else "") ++
        (joinSlash ((segsOf d.data).map String.mk) ++ ("/" ++ fn)) := by
  have hdata : (d ++ "/" ++ fn).data = d.data ++ '/' :: fn.data := by
    rw [String.data_append, String.data_append,
      show ("/" : String).data = ['/'] from rfl, List.append_assoc]
    rfl
  have hhead : (d.data ++ '/' :: fn.data).head? = d.data.head? := by
    cases h : d.data with
    | nil => exact absurd h hd
    | cons a as => rfl
  obtain ⟨c, hc⟩ : ∃ c, fn.data.getLast? = some c := by
    cases h : fn.data.getLast? with
    | none => exact absurd (List.getLast?_eq_none_iff.mp h) hfn
    | some c => exact ⟨c, rfl⟩
  have hcmem : c ∈ fn.data := List.mem_of_mem_getLast? (by rw [hc]; rfl)
  have hcne : c ≠ '/' := fun e => hslash (e ▸ hcmem)
  have hlast : (d.data ++ '/' :: fn.data).getLast? = some c := by
    rw [List.getLast?_append, show ('/' :: fn.data) = ['/'] ++ fn.data from rfl,
      List.getLast?_append, hc, Option.or_some, Option.or_some]
  have hstack : normStack (!(d.data.head? == some '/')) []
      (segsOf (d.data ++ '/' :: fn.data)) = segsOf d.data ++ [fn.data] := by
    rw [segsOf_append_fileName d.data fn.data hfn hslash]
    refine (normStack_plain _ _ []
      (fun s hs => ?_)).trans (by rw [List.nil_append])
    rcases List.mem_append.mp hs with h | h
    · exact hplain s h
    · rw [List.mem_singleton.mp h]
      exact ⟨hf1, hf2⟩
  simp only [posixNormalize, hdata, hstack, hhead, hlast]
  have hne : segsOf d.data ++ [fn.data] ≠ [] := by simp
  rw [if_neg hne]
  have htrail : (some c == some '/') = false :=
    beq_eq_false_iff_ne.mpr (fun e => hcne (Option.some.inj e))
  rw [htrail]
  simp only [Bool.false_eq_true, if_false]
  rw [List.map_append, show List.map String.mk [fn.data] = [fn] from rfl,
    joinSlash_concat fn ((segsOf d.data).map String.mk) (by simpa using hsegs),
    String.append_empty]
  by_cases habs : d.data.head? = some '/'
  · simp only [habs, beq_iff_eq, if_pos rfl]
    simp [String.append_assoc]
  · have : (d.data.head? == some '/') = false := beq_eq_false_iff_ne.mpr habs
    simp only [this, Bool.not_false, if_pos rfl, if_neg habs]
    simp [String.append_assoc]
/-! Evaluation lemmas: `Rat` arithmetic does not reduce in the kernel, so
concrete values of `bytesToHumanReadable` are reached by rewriting with these
and discharging the rational arithmetic with `norm_num`. -/

theorem bytesToHumanReadable_of_ne (q : ℚ) (h : q ≠ 0) :
    bytesToHumanReadable q =
      formatFixed2 (q / (1000 : ℚ) ^ logIndexQ q) ++ " " ++ unitName (logIndexQ q) := by
  simp [bytesToHumanReadable, h]

theorem logIndexQ_of_one_le (q : ℚ) (h : 1 ≤ q) :
    logIndexQ q = (log1000 ⌊q⌋.toNat : ℤ) := by
  simp [logIndexQ, h]

theorem formatFixed2_of_floor (q : ℚ) (n : ℤ) (hn : ⌊q * 100 + 1 / 2⌋ = n)
    (h0 : ¬ n < 0) :
    formatFixed2 q = toString (n / 100) ++ "." ++ pad2 (n % 100) := by
  simp only [formatFixed2, hn, h0, if_neg, if_false]

theorem hr_eval (q : ℚ) (i n : ℤ) (u : String) (hq : q ≠ 0)
    (hi : logIndexQ q = i) (hn : ⌊q / (1000 : ℚ) ^ i * 100 + 1 / 2⌋ = n)
    (h0 : ¬ n < 0) (hu : unitName i = u) :
    bytesToHumanReadable q = toString (n / 100) ++ "." ++ pad2 (n % 100) ++ " " ++ u := by
  rw [bytesToHumanReadable_of_ne q hq, hi, formatFixed2_of_floor _ n hn h0, hu]

/-! ## Lemmas about the logarithm index -/

theorem log1000Aux_eq_log :
    ∀ fuel n : ℕ, n ≤ fuel → log1000Aux fuel n = Nat.log 1000 n := by
  intro fuel
  induction fuel with
  | zero =>
    intro n h
    interval_cases n
    simp [log1000Aux]
  | succ fuel ih =>
    intro n h
    show (if n < 1000 then 0 else log1000Aux fuel (n / 1000) + 1) = Nat.log 1000 n
    by_cases hn : n < 1000
    · rw [if_pos hn, (Nat.log_eq_zero_iff.mpr (Or.inl hn)).symm]
    · rw [if_neg hn]
      have hge : 1000 ≤ n := Nat.le_of_not_lt hn
      have hdiv : n / 1000 ≤ fuel := by
        have : n / 1000 < n := Nat.div_lt_self (by omega) (by omega)
        omega
      rw [ih (n / 1000) hdiv, Nat.log_div_base]
      have hpos : 0 < Nat.log 1000 n := Nat.log_pos (by omega) hge
      omega

theorem log1000_eq (n : ℕ) : log1000 n = Nat.log 1000 n :=
  log1000Aux_eq_log n n le_rfl

theorem logIndexQ_natCast (n : ℕ) (h : 1 ≤ n) :
    logIndexQ (n : ℚ) = (Nat.log 1000 n : ℤ) := by
  rw [logIndexQ_of_one_le _ (by exact_mod_cast h), Int.floor_natCast,
    Int.toNat_natCast, log1000_eq]

theorem one_le_clog1000 (k : ℕ) (h : 2 ≤ k) : 1 ≤ clog1000 k := by
  unfold clog1000
  cases k with
  | zero => omega
  | succ m =>
    show (if m + 1 ≤ 1 then 0 else clog1000Aux m ((m + 1 + 999) / 1000) + 1) ≥ 1
    rw [if_neg (by omega)]
    omega

/-! ## The claims -/

/-- C1: for every successful upload, `publicFiles = true` stores into
`file.url` the full public URL for the derived object key — the composition
`<endpoint>/object/public/<bucket>/<key>` — and `publicFiles = false` stores
exactly the bare key `getPathKey file directory`, a purely textual value that
needs no backend round trip. -/
theorem upload_url_policy (p : Provider) (send : UploadRequest → Option String)
    (f : StrapiFile) (hs : send (uploadRequest p f) = none) :
    (uploadFile p send f).2 = none ∧
    (p.publicFiles = true →
      (uploadFile p send f).1.url =
        p.client.endpoint ++ "/object/public/" ++ p.bucket ++ "/" ++
          getPathKey f p.directory) ∧
    (p.publicFiles = false →
      (uploadFile p send f).1.url = getPathKey f p.directory) := by
  cases hpf : p.publicFiles <;>
    simp [uploadFile, hs, hpf, getPublicUrl]

/-- C1 witness at the public and private test configurations. -/
theorem upload_url_policy_wit :
    (uploadFile provPub (fun _ => none) fileAbc).1.url =
      "https://test.supabase.co/storage/v1/object/public/test-bucket/abc123.jpg" ∧
    (uploadFile provPriv (fun _ => none) fileAbc).1.url = "abc123.jpg" := by
  constructor
  · rw [(upload_url_policy provPub (fun _ => none) fileAbc rfl).2.1 rfl]
    decide
  · rw [(upload_url_policy provPriv (fun _ => none) fileAbc rfl).2.2 rfl]
    decide

/-- C3: construction fails with the single descriptive error when any of
`apiUrl`, `apiKey`, `bucket` is absent or empty — yielding no client handle —
and otherwise succeeds, applying the defaults `directory = ""`,
`publicFiles = true`, `signedUrlExpires = 3600` and opening the handle
against `getStorageEndpoint apiUrl` with the bearer-token and raw-key
headers. -/
theorem initProvider_validation (c : RawConfig) :
    ((c.apiUrl = none ∨ c.apiUrl = some "" ∨ c.apiKey = none ∨
        c.apiKey = some "" ∨ c.bucket = none ∨ c.bucket = some "") →
      initProvider c = .error configErrorMsg) ∧
    (∀ u k b : String, c.apiUrl = some u → u ≠ "" → c.apiKey = some k →
      k ≠ "" → c.bucket = some b → b ≠ "" →
      initProvider c = .ok
        { bucket := b
          directory := c.directory.getD ""
          publicFiles := c.publicFiles.getD true
          signedUrlExpires := c.signedUrlExpires.getD 3600
          client :=
            { endpoint := getStorageEndpoint u
              apikeyHeader := k
              authHeader := getBearerToken k } }) := by
  constructor
  · intro h
    rcases h with h | h | h | h | h | h <;> simp [initProvider, strFalsy, h]
  · intro u k b hu hune hk hkne hb hbne
    simp [initProvider, strFalsy, hu, hk, hb, hune, hkne, hbne]

/-- C3 witness: a config missing `bucket` is rejected; the full test
configuration is accepted and produces the defaulted provider state. -/
theorem initProvider_validation_wit :
    initProvider { apiUrl := some "https://test.supabase.co",
                   apiKey := some "test-key" } = .error configErrorMsg ∧
    initProvider { apiUrl := some "https://test.supabase.co",
                   apiKey := some "test-key",
                   bucket := some "test-bucket" } = .ok provPub := by
  constructor
  · exact (initProvider_validation _).1 (by decide)
  · exact ((initProvider_validation _).2 "https://test.supabase.co" "test-key"
      "test-bucket" rfl (by decide) rfl (by decide) rfl (by decide)).trans
      (congrArg Except.ok (by decide))

/-- C4: `getSignedUrl` returns `{url: file.url}` unchanged — for every
backend — when the bucket is public; when private it calls the backend at
key `file.url` with lifetime `signedUrlExpires`, propagating the signed link
on success and on failure throwing exactly the prefixed backend message
instead of returning any sentinel URL. -/
theorem getSignedUrl_policy (p : Provider)
    (sign : String → Int → Except String String) (f : StrapiFile) :
    (p.publicFiles = true → getSignedUrl p sign f = .ok f.url) ∧
    (p.publicFiles = false →
      (∀ m, sign f.url p.signedUrlExpires = .error m →
        getSignedUrl p sign f =
          .error ("Failed to generate signed URL: " ++ m)) ∧
      (∀ u, sign f.url p.signedUrlExpires = .ok u →
        getSignedUrl p sign f = .ok u)) := by
  refine ⟨fun hpf => ?_, fun hpf => ⟨fun m hm => ?_, fun u hu => ?_⟩⟩
  · simp [getSignedUrl, isPrivate, hpf]
  · simp [getSignedUrl, isPrivate, hpf, hm]
  · simp [getSignedUrl, isPrivate, hpf, hu]

/-- C4 witness: the public bucket passes the stored URL through; the private
bucket propagates the backend failure with the exact message. -/
theorem getSignedUrl_policy_wit :
    getSignedUrl provPub (fun _ _ => .error "Invalid file path")
        { fileAbc with url := "public-url" } = .ok "public-url" ∧
    getSignedUrl provPriv (fun _ _ => .error "Invalid file path")
        { fileAbc with url := "abc123.jpg" } =
      .error "Failed to generate signed URL: Invalid file path" := by
  constructor
  · exact (getSignedUrl_policy provPub _ _).1 rfl
  · exact (((getSignedUrl_policy provPriv _ _).2 rfl).1
      "Invalid file path" rfl).trans (congrArg Except.error (by decide))

/-- C5: `checkFileSize` fails exactly when `file.size * 1000` strictly
exceeds `sizeLimit`, in which case the message is exactly the file name
followed by the formatted limit; otherwise it succeeds, and it is a pure
comparison with no backend argument at all. -/
theorem checkFileSize_policy (f : StrapiFile) (sizeLimit : ℚ) :
    (¬ checkFileSize f sizeLimit = .ok () ↔ f.size * 1000 > sizeLimit) ∧
    (f.size * 1000 > sizeLimit →
      checkFileSize f sizeLimit =
        .error (f.name ++ " exceeds size limit of " ++
          bytesToHumanReadable sizeLimit)) ∧
    (¬ f.size * 1000 > sizeLimit → checkFileSize f sizeLimit = .ok ()) := by
  by_cases h : f.size * 1000 > sizeLimit <;>
    simp [checkFileSize, kbytesToBytes, h]

/-- C5 witness: the spec scenario — 100 KB against a 50000-byte limit is
rejected with the display name and `50.00 KB` in the message. -/
theorem checkFileSize_policy_wit :
    checkFileSize { fileAbc with name := "large-file.jpg" } 50000 =
      .error "large-file.jpg exceeds size limit of 50.00 KB" := by
  have h := (checkFileSize_policy { fileAbc with name := "large-file.jpg" }
    50000).2.1 (by norm_num [fileAbc])
  rw [h]
  have h50 : bytesToHumanReadable 50000 = "50.00 KB" := by
    have hi : logIndexQ 50000 = 1 := by
      rw [logIndexQ_of_one_le _ (by norm_num)]
      norm_num
      decide
    rw [hr_eval 50000 1 5000 "KB" (by norm_num) hi (by norm_num) (by decide)
      (by decide)]
    decide
  rw [h50]
  exact congrArg Except.error (by decide)

/-- C6: when the backend reports an upload error, the thrown message is
exactly the prefixed backend message and the file record — `url` included —
is returned untouched: nothing is assigned before the round trip succeeds. -/
theorem upload_error_frame (p : Provider) (send : UploadRequest → Option String)
    (f : StrapiFile) (m : String) (hs : send (uploadRequest p f) = some m) :
    uploadFile p send f =
      (f, some ("Failed to upload file to Supabase: " ++ m)) := by
  unfold uploadFile
  rw [hs]

/-- C6 witness at a concrete failing backend. -/
theorem upload_error_frame_wit :
    uploadFile provPub (fun _ => some "Storage quota exceeded") fileAbc =
      (fileAbc, some "Failed to upload file to Supabase: Storage quota exceeded") :=
  (upload_error_frame provPub _ fileAbc "Storage quota exceeded" rfl).trans
    (by decide)

/-- C7: `delete` derives its one-element key list with the same
`getPathKey` the upload request carries — from hash, ext and directory, never
from `file.url` — and on backend error throws exactly the prefixed message. -/
theorem delete_key_policy (p : Provider) (remove : List String → Option String)
    (f g : StrapiFile) :
    deleteKeys p f = [getPathKey f p.directory] ∧
    (uploadRequest p f).path = getPathKey f p.directory ∧
    (g.hash = f.hash → g.ext = f.ext → deleteKeys p g = deleteKeys p f) ∧
    (∀ m, remove (deleteKeys p f) = some m →
      deleteFile p remove f =
        some ("Failed to delete file from Supabase: " ++ m)) ∧
    (remove (deleteKeys p f) = none → deleteFile p remove f = none) := by
  refine ⟨rfl, rfl, fun hh he => ?_, fun m hm => ?_, fun hn => ?_⟩
  · simp [deleteKeys, getPathKey, hh, he]
  · unfold deleteFile
    rw [hm]
  · unfold deleteFile
    rw [hn]

/-- C7 witness: the failing backend message, and key independence from the
stored URL. -/
theorem delete_key_policy_wit :
    deleteFile provPub (fun _ => some "File not found") fileAbc =
      some "Failed to delete file from Supabase: File not found" ∧
    deleteKeys provPub { fileAbc with url := "https://elsewhere/abc123.jpg" } =
      deleteKeys provPub fileAbc := by
  have h := delete_key_policy provPub (fun _ => some "File not found") fileAbc
    { fileAbc with url := "https://elsewhere/abc123.jpg" }
  exact ⟨(h.2.2.2.1 "File not found" rfl).trans (by decide), h.2.2.1 rfl rfl⟩

/-- C10: a successful upload mutates only `url`: name, hash, ext, mime
(whose write is a self-assignment), size, buffer and stream are unchanged;
and `uploadStream` performs the identical computation as `upload`. -/
theorem upload_frame (p : Provider) (send : UploadRequest → Option String)
    (f : StrapiFile) (hs : send (uploadRequest p f) = none) :
    uploadStream p send f = upload p send f ∧
    ((uploadFile p send f).1.name = f.name ∧
      (uploadFile p send f).1.hash = f.hash ∧
      (uploadFile p send f).1.ext = f.ext ∧
      (uploadFile p send f).1.mime = f.mime ∧
      (uploadFile p send f).1.size = f.size ∧
      (uploadFile p send f).1.buffer = f.buffer ∧
      (uploadFile p send f).1.stream = f.stream) := by
  refine ⟨rfl, ?_⟩
  cases hpf : p.publicFiles <;> simp [uploadFile, hs, hpf]

/-- C10 witness at the public test configuration. -/
theorem upload_frame_wit :
    uploadStream provPub (fun _ => none) fileAbc =
      upload provPub (fun _ => none) fileAbc ∧
    (uploadFile provPub (fun _ => none) fileAbc).1.mime = fileAbc.mime := by
  have h := upload_frame provPub (fun _ => none) fileAbc rfl
  exact ⟨h.1, h.2.2.2.2.1⟩

/-- C2: counterexample.  For `directory = "/uploads"` the claim predicts the
leading slash is stripped, giving `"uploads/abc123.jpg"`; `getPathKey`
(via `path.posix.join`) preserves it and returns `"/uploads/abc123.jpg"`. -/
theorem getPathKey_leading_slash_cex :
    getPathKey fileAbc "/uploads" = "/uploads/abc123.jpg" ∧
      ¬ getPathKey fileAbc "/uploads" = "uploads/abc123.jpg" := by
  decide

/-- C2 (amended): for empty `directory` the key is `hash ++ ext` unchanged;
for non-empty `directory` made of plain segments (at least one segment, none
of them `.` or `..`) and a non-empty, slash-free leaf `hash ++ ext` that is
not itself a dot segment, the key is the directory's non-empty segments
joined by single forward slashes — so trailing and duplicated slashes
collapse — prefixed by a single `/` exactly when `directory` begins with one
(a leading slash is preserved, not stripped), then one `/` and the leaf; and
the output contains a backslash only if `directory` or the leaf does. -/
theorem getPathKey_join_amended (f : StrapiFile) (directory : String) :
    (directory = "" → getPathKey f directory = f.hash ++ f.ext) ∧
    (directory ≠ "" →
      segsOf directory.data ≠ [] →
      (∀ s ∈ segsOf directory.data, s ≠ ['.'] ∧ s ≠ ['.', '.']) →
      (f.hash ++ f.ext).data ≠ [] →
      '/' ∉ (f.hash ++ f.ext).data →
      (f.hash ++ f.ext).data ≠ ['.'] →
      (f.hash ++ f.ext).data ≠ ['.', '.'] →
      getPathKey f directory =
        (if directory.data.head? = some '/' then "/" else "") ++
          (joinSlash ((segsOf directory.data).map String.mk) ++
            ("/" ++ (f.hash ++ f.ext))) ∧
      ('\\' ∉ directory.data → '\\' ∉ (f.hash ++ f.ext).data →
        '\\' ∉ (getPathKey f directory).data)) := by
  constructor
  · intro h
    simp [getPathKey, h]
  · intro hd hsegs hplain hfn hslash hf1 hf2
    have hdd : directory.data ≠ [] := fun e => hd (String.ext e)
    have hfne : (f.hash ++ f.ext) ≠ "" := by
      intro e
      exact hfn (by rw [e])
    have hjoin : getPathKey f directory =
        posixNormalize (directory ++ "/" ++ (f.hash ++ f.ext)) := by
      simp only [getPathKey, if_neg hd, posixJoin]
      rw [show List.filter (fun s => s ≠ "") [directory, f.hash ++ f.ext] =
        [directory, f.hash ++ f.ext] from by
          simp [List.filter, hd, hfne]]
      rw [if_neg (by simp)]
      rfl
    have heq : getPathKey f directory =
        (if directory.data.head? = some '/' then "/" else "") ++
          (joinSlash ((segsOf directory.data).map String.mk) ++
            ("/" ++ (f.hash ++ f.ext))) := by
      rw [hjoin, posixNormalize_plain directory _ hdd hsegs hplain hfn hslash
        hf1 hf2]
    refine ⟨heq, fun hb1 hb2 hmem => ?_⟩
    rw [heq, String.data_append, String.data_append, String.data_append]
      at hmem
    rcases List.mem_append.mp hmem with h | h
    · by_cases habs : directory.data.head? = some '/'
      · rw [if_pos habs] at h
        exact absurd h (by decide)
      · rw [if_neg habs] at h
        exact absurd h (by decide)
    · rcases List.mem_append.mp h with h | h
      · rcases mem_joinSlash _ _ h with h2 | ⟨x, hx, hcx⟩
        · exact absurd h2 (by decide)
        · obtain ⟨t, ht, rfl⟩ := List.mem_map.mp hx
          rcases mem_of_mem_segsAux '\\' directory.data [] t ht hcx with h3 | h3
          · simp at h3
          · exact hb1 h3
      · rcases List.mem_append.mp h with h | h
        · exact absurd h (by decide)
        · exact hb2 h

/-- C2 witness: a directory with a trailing slash collapses to a single
separator and the output is backslash-free. -/
theorem getPathKey_join_amended_wit :
    getPathKey fileAbc "uploads/" = "uploads/abc123.jpg" ∧
      '\\' ∉ (getPathKey fileAbc "uploads/").data := by
  have h := (getPathKey_join_amended fileAbc "uploads/").2 (by decide)
    (by decide) (by decide) (by decide) (by decide) (by decide) (by decide)
  refine ⟨?_, h.2 (by decide) (by decide)⟩
  rw [h.1]
  decide

/-- C8: `bytesToHumanReadable` returns `0 Bytes` at 0; its documented sample
values hold; and for every natural input in the band `1000 ^ i ≤ n <
1000 ^ (i + 1)` with `i < 6` — so `i = ⌊log_1000 n⌋` — the result is
`n / 1000 ^ i` with two decimals, a space, and the unit at index `i`. -/
theorem bytesToHumanReadable_format :
    bytesToHumanReadable 0 = "0 Bytes" ∧
    bytesToHumanReadable 500 = "500.00 Bytes" ∧
    bytesToHumanReadable 1500 = "1.50 KB" ∧
    bytesToHumanReadable 1500000 = "1.50 MB" ∧
    (∀ i n : ℕ, i < 6 → 1000 ^ i ≤ n → n < 1000 ^ (i + 1) →
      bytesToHumanReadable (n : ℚ) =
        formatFixed2 ((n : ℚ) / (1000 : ℚ) ^ i) ++ " " ++ units.getD i "") := by
  refine ⟨by simp [bytesToHumanReadable], ?_, ?_, ?_, ?_⟩
  · have hi : logIndexQ 500 = 0 := by
      rw [logIndexQ_of_one_le _ (by norm_num)]
      norm_num
      decide
    rw [hr_eval 500 0 50000 "Bytes" (by norm_num) hi (by norm_num) (by decide)
      (by decide)]
    decide
  · have hi : logIndexQ 1500 = 1 := by
      rw [logIndexQ_of_one_le _ (by norm_num)]
      norm_num
      decide
    rw [hr_eval 1500 1 150 "KB" (by norm_num) hi (by norm_num) (by decide)
      (by decide)]
    decide
  · have hi : logIndexQ 1500000 = 2 := by
      rw [logIndexQ_of_one_le _ (by norm_num)]
      norm_num
      decide
    rw [hr_eval 1500000 2 150 "MB" (by norm_num) hi (by norm_num) (by decide)
      (by decide)]
    decide
  · intro i n hi6 hle hlt
    have hn1 : 1 ≤ n := le_trans (Nat.one_le_pow i 1000 (by norm_num)) hle
    have hq0 : (n : ℚ) ≠ 0 := by
      have hne : n ≠ 0 := by omega
      exact_mod_cast hne
    have hI : logIndexQ (n : ℚ) = (i : ℤ) := by
      rw [logIndexQ_natCast n hn1, Nat.log_eq_of_pow_le_of_lt_pow hle hlt]
    rw [bytesToHumanReadable_of_ne _ hq0, hI, zpow_natCast]
    congr 1
    interval_cases i <;> decide

/-- C8 witness: the band characterization applied at `i = 1`, `n = 2500`. -/
theorem bytesToHumanReadable_format_wit :
    bytesToHumanReadable ((2500 : ℕ) : ℚ) =
      formatFixed2 (((2500 : ℕ) : ℚ) / (1000 : ℚ) ^ (1 : ℕ)) ++ " " ++
        units.getD 1 "" :=
  bytesToHumanReadable_format.2.2.2.2 1 2500 (by decide) (by decide) (by decide)

/-- C9: the unit lookup stays inside the six-entry table only on
`1 ≤ n < 1000 ^ 6`: for `n ≥ 1000 ^ 6` the index is at least 6 and past the
table's end, for `0 < n < 1` it is negative, and in both cases the returned
string carries the out-of-table marker `undefined`, which is no unit name. -/
theorem bytesToHumanReadable_out_of_range (q : ℚ) :
    ((1000 : ℚ) ^ (6 : ℕ) ≤ q →
      6 ≤ logIndexQ q ∧
      bytesToHumanReadable q =
        formatFixed2 (q / (1000 : ℚ) ^ logIndexQ q) ++ " undefined") ∧
    (0 < q → q < 1 →
      logIndexQ q < 0 ∧
      bytesToHumanReadable q =
        formatFixed2 (q / (1000 : ℚ) ^ logIndexQ q) ++ " undefined") ∧
    (1 ≤ q → q < (1000 : ℚ) ^ (6 : ℕ) →
      0 ≤ logIndexQ q ∧ logIndexQ q < 6) ∧
    "undefined" ∉ units := by
  have hundef : ∀ r : ℚ, r ≠ 0 → unitName (logIndexQ r) = "undefined" →
      bytesToHumanReadable r =
        formatFixed2 (r / (1000 : ℚ) ^ logIndexQ r) ++ " undefined" := by
    intro r hr hu
    rw [bytesToHumanReadable_of_ne _ hr, hu, String.append_assoc]
    rfl
  refine ⟨fun h => ?_, fun h0 h1 => ?_, fun h1 h6 => ?_, by decide⟩
  · have h1 : (1 : ℚ) ≤ q := le_trans (by norm_num) h
    have hI : logIndexQ q = (Nat.log 1000 ⌊q⌋.toNat : ℤ) := by
      rw [logIndexQ_of_one_le _ h1, log1000_eq]
    have hfl : (1000 : ℤ) ^ (6 : ℕ) ≤ ⌊q⌋ := Int.le_floor.mpr (by push_cast; exact h)
    have hflN : 1000 ^ 6 ≤ ⌊q⌋.toNat := by
      have he : (1000 : ℤ) ^ (6 : ℕ) = 1000000000000000000 := by norm_num
      rw [he] at hfl
      omega
    have hne0 : ⌊q⌋.toNat ≠ 0 := by
      have : (0 : ℕ) < 1000 ^ 6 := by positivity
      omega
    have hlog : 6 ≤ Nat.log 1000 ⌊q⌋.toNat :=
      (Nat.pow_le_iff_le_log (by norm_num) hne0).mp hflN
    have h6le : 6 ≤ logIndexQ q := by
      rw [hI]
      exact_mod_cast hlog
    refine ⟨h6le, hundef q (by positivity) ?_⟩
    rw [hI]
    unfold unitName
    rw [if_pos (Int.natCast_nonneg _), Int.toNat_natCast,
      List.get?_eq_none.mpr (by simpa using hlog)]
    rfl
  · have hn1 : ¬ (1 : ℚ) ≤ q := not_le.mpr h1
    have hI : logIndexQ q =
        -(clog1000 ((q.den + q.num.toNat - 1) / q.num.toNat) : ℤ) := by
      simp [logIndexQ, hn1]
    have hnum : 0 < q.num := Rat.num_pos.mpr h0
    have hden : q.num < (q.den : ℤ) := by
      have hd : (0 : ℚ) < (q.den : ℚ) := by positivity
      have h2 : (q.num : ℚ) / (q.den : ℚ) < 1 := by
        rw [Rat.num_div_den]
        exact h1
      exact_mod_cast (div_lt_one hd).mp h2
    have ha : 1 ≤ q.num.toNat := by omega
    have hk : 2 ≤ (q.den + q.num.toNat - 1) / q.num.toNat := by
      rw [Nat.le_div_iff_mul_le (by omega)]
      omega
    have hclog : (1 : ℤ) ≤ (clog1000 ((q.den + q.num.toNat - 1) / q.num.toNat) : ℤ) := by
      exact_mod_cast one_le_clog1000 _ hk
    have hneg : logIndexQ q < 0 := by
      rw [hI]
      omega
    refine ⟨hneg, hundef q (ne_of_gt h0) ?_⟩
    unfold unitName
    rw [if_neg (by omega)]
    rfl
  · have hI : logIndexQ q = (Nat.log 1000 ⌊q⌋.toNat : ℤ) := by
      rw [logIndexQ_of_one_le _ h1, log1000_eq]
    have hfl1 : (1 : ℤ) ≤ ⌊q⌋ := Int.le_floor.mpr (by exact_mod_cast h1)
    have hflub : ⌊q⌋ < (1000 : ℤ) ^ (6 : ℕ) := by
      rw [Int.floor_lt]
      push_cast
      exact h6
    have hubN : ⌊q⌋.toNat < 1000 ^ 6 := by
      have he : (1000 : ℤ) ^ (6 : ℕ) = 1000000000000000000 := by norm_num
      rw [he] at hflub
      have hn : (1000 : ℕ) ^ 6 = 1000000000000000000 := by norm_num
      omega
    have hne0 : ⌊q⌋.toNat ≠ 0 := by omega
    refine ⟨by rw [hI]; exact Int.natCast_nonneg _, ?_⟩
    rw [hI]
    exact_mod_cast Nat.log_lt_of_lt_pow hne0 hubN

/-- C9 witness: the index at `1000 ^ 6` is at least 6, the index at `1 / 2`
is negative, and both render the `undefined` marker. -/
theorem bytesToHumanReadable_out_of_range_wit :
    6 ≤ logIndexQ ((1000 : ℚ) ^ (6 : ℕ)) ∧ logIndexQ (1 / 2 : ℚ) < 0 :=
  ⟨((bytesToHumanReadable_out_of_range _).1 le_rfl).1,
    ((bytesToHumanReadable_out_of_range _).2.1 (by norm_num) (by norm_num)).1⟩

end SupabaseProvider
